import Mathlib

/-!
Shallow embedding of the windowed lexer buffer of github.com/tdewolff/buffer
(`lexer.go`): the `BufferPool` (blocks, `swap`, `free`) and the `Lexer`
(`read`, `Peek`, `PeekRune`, `Move`, `MoveTo`, `Pos`, `Bytes`, `Shift`,
`Skip`, `Free`, `Err`), together with theorems settling the frozen claims.

Modelling conventions:
* Go byte slices are modelled by their visible contents (a `List Nat` of
  values `< 256`, enforced by masking at the read-from-source site) plus a
  separately tracked capacity.  Contents of a backing array beyond the
  slice length are never read by the code paths modelled here (a refill
  overwrites `[0, d)` by `copy` and `[d, d+n)` by the source read before
  any index into the new buffer), so pool blocks record only identity,
  length and capacity.
* Go panics (slice-bound violations, index out of range) are modelled by
  `Option`: `none` is a panic.  A diverging `free` loop (possible only on
  a cyclic `next` chain, which no reachable pool has) is also `none`,
  via a fuel bound of `pool.length + 1` — enough for every acyclic chain.
* Each block and each backing buffer carries an allocation identity `id`;
  `make` inside `swap` draws a fresh id from `nextId`.  "No new
  allocation" is `nextId` (and the pool length) unchanged.
* The `io.Reader` is an oracle `rdr : Nat → Nat → List Nat × Option GoError`:
  given the index of the call (how many reads happened before) and the
  size of the region handed to `Read`, it yields the bytes written (their
  number is `n`, clamped to the region size as the `io.Reader` contract
  requires) and the returned error.
-/

/-- Go error values relevant to the lexer: `io.EOF` or a distinct source
error (its payload an arbitrary code).  `Option GoError` models Go's
nullable `error` field, `none` being `nil`. -/
inductive GoError where
  | eof : GoError
  | src (code : Nat) : GoError
deriving DecidableEq, Repr

/-- A Go byte-slice value as the pool sees it: allocation identity,
slice length and capacity.  Contents are irrelevant to the pool (never
read before being overwritten; see module docstring). -/
structure Buf where
  id : Nat
  len : Nat
  cap : Nat
deriving DecidableEq, Repr

/-- Model of `block` from lexer.go: a pooled buffer, its `next` link
(index in pool plus one) and its `active` flag. -/
structure Block where
  buf : Buf
  next : Nat
  active : Bool
deriving DecidableEq, Repr

/-- Model of `BufferPool` from lexer.go: the block list, `head` and `tail`
(each an index in pool plus one) and `pos`, the byte position consumed in
the tail block.  `nextId` is model bookkeeping: the next fresh
allocation identity handed out by `make` inside `swap`. -/
structure BufferPool where
  pool : List Block
  head : Nat
  tail : Nat
  pos : Int
  nextId : Nat
deriving DecidableEq, Repr

/-- The fresh, empty pool a new `Lexer` starts with. -/
def BufferPool.empty : BufferPool :=
  { pool := [], head := 0, tail := 0, pos := 0, nextId := 1 }

/-- The scan in `BufferPool.swap` that looks for the first inactive block
whose capacity can hold `size` (`for i := range z.pool { if
!z.pool[i].active && size <= cap(z.pool[i].buf) ... }`). -/
def findSwap : List Block → Int → Nat → Option Nat
  | [], _, _ => none
  | b :: rest, size, idx =>
    if b.active = false ∧ size ≤ (b.buf.cap : Int) then some idx
    else findSwap rest size (idx + 1)

/-- Tail of `BufferPool.swap` once the reused-or-allocated slot `swapIdx`
and its buffer `newBuf` are known: store `oldBuf` in that slot, link it
behind the current head, update `head`/`tail`, return `newBuf[:0]`.
`none` models the panic of `z.pool[z.head-1]` when `head` dangles. -/
def swapCommon (z : BufferPool) (swapIdx : Nat) (newBuf oldBuf : Buf) :
    Option (BufferPool × Buf) :=
  let pool1 := z.pool.set swapIdx { buf := oldBuf, next := 0, active := true }
  let tail1 := if z.tail = 0 then swapIdx + 1 else z.tail
  if z.head = 0 then
    some ({ z with pool := pool1, head := swapIdx + 1, tail := tail1 },
          { newBuf with len := 0 })
  else
    match pool1.get? (z.head - 1) with
    | none => none
    | some hb =>
      let pool2 := pool1.set (z.head - 1) { hb with next := swapIdx + 1 }
      some ({ z with pool := pool2, head := swapIdx + 1, tail := tail1 },
            { newBuf with len := 0 })

/-- Model of `BufferPool.swap` from lexer.go: find an inactive block of sufficient
capacity to reuse; failing that, either slide within `oldBuf` itself
(when the chain is empty, `pos` already covers all of `oldBuf` and it is
big enough) or allocate a fresh block; then retire `oldBuf` into the
chain and return the new backing truncated to length 0. -/
def BufferPool.swap (z : BufferPool) (oldBuf : Buf) (size : Int) :
    Option (BufferPool × Buf) :=
  match findSwap z.pool size 0 with
  | some i =>
    match z.pool.get? i with
    | none => none
    | some blk => swapCommon z i blk.buf oldBuf
  | none =>
    if z.tail = 0 ∧ (oldBuf.len : Int) ≤ z.pos ∧ size ≤ (oldBuf.cap : Int) then
      some ({ z with pos := z.pos - oldBuf.len }, { oldBuf with len := 0 })
    else
      let fresh : Buf := { id := z.nextId, len := 0, cap := size.toNat }
      let z1 : BufferPool :=
        { z with
          pool := z.pool ++ [{ buf := fresh, next := 0, active := true }]
          nextId := z.nextId + 1 }
      swapCommon z1 (z1.pool.length - 1) fresh oldBuf

/-- The `for z.tail != 0 && z.pos >= len(z.pool[z.tail-1].buf)` loop of
`BufferPool.free`, with fuel: each iteration pops one block off the
chain, so `pool.length + 1` fuel suffices for every acyclic chain; fuel
running out models the divergence Go would exhibit on a cyclic chain. -/
def freeLoop : Nat → BufferPool → Option BufferPool
  | 0, _ => none
  | fuel + 1, z =>
    if z.tail = 0 then some z
    else
      match z.pool.get? (z.tail - 1) with
      | none => none
      | some blk =>
        if (blk.buf.len : Int) ≤ z.pos then
          freeLoop fuel
            { z with
              pos := z.pos - blk.buf.len
              pool := z.pool.set (z.tail - 1) { blk with active := false }
              tail := blk.next }
        else some z

/-- Model of `BufferPool.free` from lexer.go: advance `pos` by `n`, drain fully
consumed tail blocks (marking them inactive), and reset `head` when the
chain empties. -/
def BufferPool.free (z : BufferPool) (n : Int) : Option BufferPool :=
  (freeLoop (z.pool.length + 1) { z with pos := z.pos + n }).map fun z1 =>
    if z1.tail = 0 then { z1 with head := 0 } else z1

/-- The package-level variable `c` that `Lexer.read` compares `2*d`
against: `var c = 0` from shifter_test.go (the benchmark hit counter,
which is what the identifier `c` resolves to inside package `buffer`,
since `read` names its local capacity `size`). -/
def c : Int := 0

/-- Model of `defaultBufSize` from buffer.go. -/
def defaultBufSize : Nat := 4096

/-- The `Lexer` from lexer.go.  `zend` is the Go field `end` (a Lean
keyword).  `rdr`/`calls` model the `io.Reader`: `calls` counts how often
`Read` has been invoked, and `rdr calls size` is the response of the next
invocation when handed a region of `size` bytes.  `bufId`/`bufCap` track
the identity and capacity of the current backing array. -/
structure Lexer where
  rdr : Nat → Nat → List Nat × Option GoError
  calls : Nat
  err : Option GoError
  pool : BufferPool
  bufId : Nat
  buf : List Nat
  bufCap : Nat
  pos : Int
  zend : Int

/-- Model of `Lexer.read` from lexer.go: the refill.  Returns the byte at the
(absolute) requested index `endv` after sliding the unconsumed residue to
the front of a buffer obtained from the pool and pulling new data from
the source once.  `none` is a Go panic (slice bound or index out of
range).  Mirrors the source line by line; note the growth test `2*d > c`
against the package variable `c`. -/
def Lexer.read (z : Lexer) (endv : Int) : Option (Nat × Lexer) :=
  if z.err.isSome then some (0, z)
  else
    let size : Int := (z.bufCap : Int)
    let d : Int := (z.buf.length : Int) - z.pos
    let size : Int := if 2 * d > c then 2 * size + d else size
    -- z.buf[:z.pos] panics unless 0 ≤ pos ≤ cap
    if 0 ≤ z.pos ∧ z.pos ≤ (z.bufCap : Int) then
      let oldBuf : Buf := { id := z.bufId, len := z.pos.toNat, cap := z.bufCap }
      match z.pool.swap oldBuf size with
      | none => none
      | some (pool1, buf1) =>
        -- copy(buf[:d], z.buf[z.pos:]) panics unless 0 ≤ d ≤ cap(buf) and pos ≤ len
        if 0 ≤ d ∧ d ≤ (buf1.cap : Int) ∧ z.pos ≤ (z.buf.length : Int) then
          let residual := z.buf.drop z.pos.toNat
          let region : Nat := buf1.cap - d.toNat
          let resp := z.rdr z.calls region
          let bytes := (resp.1.take region).map (· % 256)
          let n : Nat := bytes.length
          let endv2 : Int := endv - z.pos
          let z' : Lexer :=
            { z with
              calls := z.calls + 1
              err := resp.2
              pool := pool1
              bufId := buf1.id
              buf := residual ++ bytes
              bufCap := buf1.cap
              pos := 0
              zend := z.zend - z.pos }
          if n = 0 then
            some (0, if resp.2.isSome then z' else { z' with err := some GoError.eof })
          else
            if 0 ≤ endv2 then
              match (residual ++ bytes).get? endv2.toNat with
              | some b => some (b, z')
              | none => none
            else none
        else none
    else none

/-- Model of `Lexer.Peek` from lexer.go: byte at offset `i` past the frontier,
refilling when the index reaches the end of the buffered data.  `none`
is a panic (negative index, or the refill's own panic). -/
def Lexer.Peek (z : Lexer) (i : Int) : Option (Nat × Lexer) :=
  let endv := i + z.zend
  if (z.buf.length : Int) ≤ endv then z.read endv
  else if 0 ≤ endv then
    match z.buf.get? endv.toNat with
    | some b => some (b, z)
    | none => none
  else none

/-- Model of `Lexer.PeekRune` from lexer.go: UTF-8 decode-on-peek.  The lead byte
picks one of four length classes; continuation bytes are fetched with
further peeks and composed with the 6-bit mask, with no validation. -/
def Lexer.PeekRune (z : Lexer) (i : Int) : Option ((Nat × Nat) × Lexer) :=
  match z.Peek i with
  | none => none
  | some (cb, z1) =>
    if cb < 0xC0 then some ((cb, 1), z1)
    else if cb < 0xE0 then
      match z1.Peek (i + 1) with
      | none => none
      | some (c1, z2) =>
        some ((((cb &&& 0x1F) <<< 6) ||| (c1 &&& 0x3F), 2), z2)
    else if cb < 0xF0 then
      match z1.Peek (i + 1) with
      | none => none
      | some (c1, z2) =>
        match z2.Peek (i + 2) with
        | none => none
        | some (c2, z3) =>
          some ((((cb &&& 0x0F) <<< 12) ||| ((c1 &&& 0x3F) <<< 6) |||
                 (c2 &&& 0x3F), 3), z3)
    else
      match z1.Peek (i + 1) with
      | none => none
      | some (c1, z2) =>
        match z2.Peek (i + 2) with
        | none => none
        | some (c2, z3) =>
          match z3.Peek (i + 3) with
          | none => none
          | some (c3, z4) =>
            some ((((cb &&& 0x07) <<< 18) ||| ((c1 &&& 0x3F) <<< 12) |||
                   ((c2 &&& 0x3F) <<< 6) ||| (c3 &&& 0x3F), 4), z4)

/-- Model of `Lexer.Move` from lexer.go: advance the frontier by `n` (unchecked). -/
def Lexer.Move (z : Lexer) (n : Int) : Lexer :=
  { z with zend := z.zend + n }

/-- Model of `Lexer.MoveTo` from lexer.go: rewind the frontier to mark `n`. -/
def Lexer.MoveTo (z : Lexer) (n : Int) : Lexer :=
  { z with zend := z.pos + n }

/-- Model of `Lexer.Pos` from lexer.go: the relative mark `z.end - z.pos`. -/
def Lexer.Pos (z : Lexer) : Int :=
  z.zend - z.pos

/-- Model of `Lexer.Bytes` from lexer.go: the selection `z.buf[z.pos:z.end]`.
`none` models the out-of-range cases (the model only represents the
visible prefix of the backing array, so a frontier moved beyond the
buffered data has no denotable selection). -/
def Lexer.Bytes (z : Lexer) : Option (List Nat) :=
  if 0 ≤ z.pos ∧ z.pos ≤ z.zend ∧ z.zend ≤ (z.buf.length : Int) then
    some ((z.buf.take z.zend.toNat).drop z.pos.toNat)
  else none

/-- Model of `Lexer.Shift` from lexer.go: return the selection and collapse the
start to the frontier. -/
def Lexer.Shift (z : Lexer) : Option (List Nat × Lexer) :=
  (z.Bytes).map fun b => (b, { z with pos := z.zend })

/-- Model of `Lexer.Skip` from lexer.go: collapse the start to the frontier. -/
def Lexer.Skip (z : Lexer) : Lexer :=
  { z with pos := z.zend }

/-- Model of `Lexer.Free` from lexer.go: delegate to the pool. -/
def Lexer.Free (z : Lexer) (n : Int) : Option Lexer :=
  (z.pool.free n).map fun p => { z with pool := p }

/-- Model of `Lexer.Err` from lexer.go: report no error while the frontier is
still short of the buffered data, even after the source returned EOF. -/
def Lexer.Err (z : Lexer) : Option GoError :=
  if z.err = some GoError.eof ∧ z.zend < (z.buf.length : Int) then none
  else z.err

/-- The fast-path constructor of `NewLexerSize` from lexer.go: the
`io.Reader` exposes `Bytes() []byte`, so the lexer runs directly over
that slice with `err` pre-set to `io.EOF` and an empty pool.  The source
reader is never consulted on this path. -/
def NewLexerBytes (bs : List Nat) : Lexer :=
  { rdr := fun _ _ => ([], none)
    calls := 0
    err := some GoError.eof
    pool := BufferPool.empty
    bufId := 0
    buf := bs.map (· % 256)
    bufCap := bs.length
    pos := 0
    zend := 0 }

/-- The streaming-path constructor of `NewLexerSize` from lexer.go:
allocate an empty backing of capacity `size`, then prime with
`z.Peek(0)` (whose byte result is discarded). -/
def NewLexerStream (rdr : Nat → Nat → List Nat × Option GoError)
    (size : Nat) : Option Lexer :=
  let z : Lexer :=
    { rdr := rdr
      calls := 0
      err := none
      pool := BufferPool.empty
      bufId := 0
      buf := []
      bufCap := size
      pos := 0
      zend := 0 }
  (z.Peek 0).map (·.2)

/-- The operations of the public surface, for quantifying over
sequences of calls (outputs dropped; only state evolution matters). -/
inductive Op where
  | peek (i : Int) : Op
  | peekRune (i : Int) : Op
  | move (n : Int) : Op
  | moveTo (n : Int) : Op
  | pos : Op
  | bytes : Op
  | shift : Op
  | skip : Op
  | free (n : Int) : Op

/-- One public operation applied to a lexer state; `none` is a panic. -/
def Lexer.step (z : Lexer) : Op → Option Lexer
  | Op.peek i => (z.Peek i).map (·.2)
  | Op.peekRune i => (z.PeekRune i).map (·.2)
  | Op.move n => some (z.Move n)
  | Op.moveTo n => some (z.MoveTo n)
  | Op.pos => some z
  | Op.bytes => (z.Bytes).map fun _ => z
  | Op.shift => (z.Shift).map (·.2)
  | Op.skip => some z.Skip
  | Op.free n => z.Free n

/-- A sequence of public operations. -/
def Lexer.run (z : Lexer) : List Op → Option Lexer
  | [] => some z
  | op :: ops =>
    match z.step op with
    | none => none
    | some z1 => z1.run ops

/-- The three-position window invariant of the spec, instantiated to the
code's representation: after every refill the consumed floor of the
current backing is index 0, the token start is `z.pos` and the frontier
is `z.zend`, so the invariant reads
`0 ≤ pos ≤ end ≤ len(buf) (≤ cap)`. -/
def LexInv (z : Lexer) : Prop :=
  0 ≤ z.pos ∧ z.pos ≤ z.zend ∧ z.zend ≤ (z.buf.length : Int) ∧
    z.buf.length ≤ z.bufCap

instance (z : Lexer) : Decidable (LexInv z) := by
  unfold LexInv; infer_instance

/-! ## Helper lemmas about `read` and `Peek` -/

/-- Well-formedness of the pool's `head` index: `head` is 0 or points at
an existing block, so `swap` never panics on its head-link update. -/
def PoolWf (p : BufferPool) : Prop :=
  p.head ≤ p.pool.length

instance (p : BufferPool) : Decidable (PoolWf p) := by
  unfold PoolWf; infer_instance

theorem read_inv {z : Lexer} {e : Int} {b : Nat} {z' : Lexer}
    (hI : LexInv z) (h : z.read e = some (b, z')) : LexInv z' := by
  obtain ⟨h0, h1, h2, h3⟩ := hI
  simp only [Lexer.read] at h
  split at h
  · simp only [Option.some.injEq, Prod.mk.injEq] at h
    exact h.2 ▸ ⟨h0, h1, h2, h3⟩
  · split at h
    · split at h
      · simp at h
      · rename_i pool1 buf1 heq
        split at h
        · rename_i hd
          split at h
          · rename_i hn
            split at h <;>
            · simp only [Option.some.injEq, Prod.mk.injEq] at h
              obtain ⟨-, hz⟩ := h
              subst hz
              refine ⟨?_, ?_, ?_, ?_⟩ <;>
              · simp only [List.length_append, List.length_drop,
                  List.length_map, List.length_take]
                omega
          · rename_i hn
            split at h
            · rename_i he2
              split at h
              · rename_i b2 heq2
                simp only [Option.some.injEq, Prod.mk.injEq] at h
                obtain ⟨-, hz⟩ := h
                subst hz
                refine ⟨?_, ?_, ?_, ?_⟩ <;>
                · simp only [List.length_append, List.length_drop,
                    List.length_map, List.length_take]
                  omega
              · simp at h
            · simp at h
        · simp at h
    · simp at h

theorem peek_inv {z : Lexer} {i : Int} {b : Nat} {z' : Lexer}
    (hI : LexInv z) (h : z.Peek i = some (b, z')) : LexInv z' := by
  simp only [Lexer.Peek] at h
  split at h
  · exact read_inv hI h
  · split at h
    · split at h
      · simp only [Option.some.injEq, Prod.mk.injEq] at h
        exact h.2 ▸ hI
      · simp at h
    · simp at h

theorem peekRune_inv {z : Lexer} {i : Int} {r n : Nat} {z' : Lexer}
    (hI : LexInv z) (h : z.PeekRune i = some ((r, n), z')) : LexInv z' := by
  simp only [Lexer.PeekRune] at h
  split at h
  · simp at h
  · rename_i cb z1 heq1
    have h1 : LexInv z1 := peek_inv hI heq1
    split at h
    · simp only [Option.some.injEq, Prod.mk.injEq] at h
      exact h.2 ▸ h1
    · split at h
      · split at h
        · simp at h
        · rename_i c1 z2 heq2
          have h2 : LexInv z2 := peek_inv h1 heq2
          simp only [Option.some.injEq, Prod.mk.injEq] at h
          exact h.2 ▸ h2
      · split at h
        · split at h
          · simp at h
          · rename_i c1 z2 heq2
            have h2 : LexInv z2 := peek_inv h1 heq2
            split at h
            · simp at h
            · rename_i c2 z3 heq3
              have h3 : LexInv z3 := peek_inv h2 heq3
              simp only [Option.some.injEq, Prod.mk.injEq] at h
              exact h.2 ▸ h3
        · split at h
          · simp at h
          · rename_i c1 z2 heq2
            have h2 : LexInv z2 := peek_inv h1 heq2
            split at h
            · simp at h
            · rename_i c2 z3 heq3
              have h3 : LexInv z3 := peek_inv h2 heq3
              split at h
              · simp at h
              · rename_i c3 z4 heq4
                have h4 : LexInv z4 := peek_inv h3 heq4
                simp only [Option.some.injEq, Prod.mk.injEq] at h
                exact h.2 ▸ h4

/-- The caller contract of §4.1 on frontier moves: `move`/`moveTo` must
leave the frontier between the token start and the end of the buffered
data.  All other operations are unconstrained. -/
def okMove (z : Lexer) : Op → Prop
  | Op.move n => z.pos ≤ z.zend + n ∧ z.zend + n ≤ (z.buf.length : Int)
  | Op.moveTo n => 0 ≤ n ∧ z.pos + n ≤ (z.buf.length : Int)
  | _ => True

theorem step_inv {z : Lexer} {op : Op} {z' : Lexer}
    (hI : LexInv z) (hok : okMove z op) (h : z.step op = some z') :
    LexInv z' := by
  obtain ⟨h0, h1, h2, h3⟩ := hI
  cases op with
  | peek i =>
    simp only [Lexer.step, Option.map_eq_some'] at h
    obtain ⟨⟨b, z1⟩, hp, hz⟩ := h
    exact hz ▸ peek_inv ⟨h0, h1, h2, h3⟩ hp
  | peekRune i =>
    simp only [Lexer.step, Option.map_eq_some'] at h
    obtain ⟨⟨⟨r, n⟩, z1⟩, hp, hz⟩ := h
    exact hz ▸ peekRune_inv ⟨h0, h1, h2, h3⟩ hp
  | move n =>
    simp only [Lexer.step, Option.some.injEq] at h
    subst h
    obtain ⟨ha, hb⟩ := hok
    exact ⟨h0, by simpa [Lexer.Move] using ha, by simpa [Lexer.Move] using hb,
      h3⟩
  | moveTo n =>
    simp only [Lexer.step, Option.some.injEq] at h
    subst h
    obtain ⟨ha, hb⟩ := hok
    refine ⟨h0, ?_, ?_, h3⟩ <;> simp only [Lexer.MoveTo] <;> omega
  | pos =>
    simp only [Lexer.step, Option.some.injEq] at h
    exact h ▸ ⟨h0, h1, h2, h3⟩
  | bytes =>
    simp only [Lexer.step, Option.map_eq_some'] at h
    obtain ⟨b, -, hz⟩ := h
    exact hz ▸ ⟨h0, h1, h2, h3⟩
  | shift =>
    simp only [Lexer.step, Lexer.Shift] at h
    cases hB : z.Bytes with
    | none => rw [hB] at h; simp at h
    | some bs =>
      rw [hB] at h
      simp only [Option.map_some', Option.some.injEq] at h
      subst h
      refine ⟨?_, ?_, ?_, ?_⟩ <;> (dsimp only; omega)
  | skip =>
    simp only [Lexer.step, Lexer.Skip, Option.some.injEq] at h
    subst h
    refine ⟨?_, ?_, ?_, ?_⟩ <;> (dsimp only; omega)
  | free n =>
    simp only [Lexer.step, Lexer.Free, Option.map_eq_some'] at h
    obtain ⟨p, -, hz⟩ := h
    exact hz ▸ ⟨h0, h1, h2, h3⟩

/-- Claim C1 (amended): the window invariant
`posConsumed(=0 after re-basing) ≤ posStart(=pos) ≤ posEnd(=end) ≤ len(backing)`
holds at construction (both the in-memory fast path and the streaming
path, including its priming peek) and is preserved by every public
operation — peeks with their refills re-base all positions atomically —
provided each `move`/`moveTo` keeps the frontier within
`[posStart, len(backing)]` (the §4.1 caller contract).  Without that
proviso the unchecked `Move` violates the invariant
(see the counterexample). -/
theorem c1_invariant_reachable (bs : List Nat)
    (r : Nat → Nat → List Nat × Option GoError) (s : Nat)
    (z0 z z' : Lexer) (op : Op) :
    LexInv (NewLexerBytes bs) ∧
    (NewLexerStream r s = some z0 → LexInv z0) ∧
    (LexInv z → okMove z op → z.step op = some z' → LexInv z') := by
  refine ⟨?_, ?_, fun hI hok h => step_inv hI hok h⟩
  · refine ⟨le_refl 0, le_refl 0, ?_, ?_⟩ <;>
      simp [NewLexerBytes]
  · intro h
    simp only [NewLexerStream, Option.map_eq_some'] at h
    obtain ⟨⟨b, z1⟩, hp, hz⟩ := h
    refine hz ▸ peek_inv ?_ hp
    exact ⟨le_refl 0, le_refl 0, le_refl 0, Nat.zero_le s⟩

/-- Claim C1 counterexample: from the in-memory constructor over two
bytes — a reachable state — a single `move(3)` (a listed operation)
yields `posEnd = 3 > 2 = len(backing)`, so the invariant does not hold
for every sequence of the listed operations. -/
theorem c1_counterexample :
    (NewLexerBytes [97, 98]).run [Op.move 3] =
      some ((NewLexerBytes [97, 98]).Move 3) ∧
    ¬ LexInv ((NewLexerBytes [97, 98]).Move 3) :=
  ⟨rfl, by decide⟩

/-- Witness for C1: the amended theorem applied at concrete inputs. -/
theorem c1_witness :
    LexInv (NewLexerBytes [97, 98]) ∧
    LexInv ((NewLexerBytes [97, 98]).Move 1) := by
  have h := c1_invariant_reachable [97, 98] (fun _ _ => ([], none)) 4
    (NewLexerBytes [97, 98]) (NewLexerBytes [97, 98])
    ((NewLexerBytes [97, 98]).Move 1) (Op.move 1)
  exact ⟨h.1, h.2.2 (by decide) ⟨by decide, by decide⟩ rfl⟩

/-- Claim C4: `Err` reports no error while the frontier is strictly below
the end of the buffered data even though the source returned EOF; once
the frontier reaches the end of the data, `Err` yields EOF, and moving
back one byte makes `Err` yield no error again. -/
theorem c4_err_frontier (z : Lexer) (he : z.err = some GoError.eof) :
    (z.zend < (z.buf.length : Int) → z.Err = none) ∧
    (z.zend = (z.buf.length : Int) →
      z.Err = some GoError.eof ∧ (z.Move (-1)).Err = none) := by
  constructor
  · intro hlt
    unfold Lexer.Err
    rw [if_pos ⟨he, hlt⟩]
  · intro heq
    constructor
    · unfold Lexer.Err
      rw [if_neg (by rintro ⟨-, hlt⟩; omega), he]
    · show (if _ ∧ (z.Move (-1)).zend < ((z.Move (-1)).buf.length : Int)
          then none else (z.Move (-1)).err) = none
      rw [if_pos ⟨he, by simp only [Lexer.Move]; omega⟩]

/-- Witness for C4 at a one-byte in-memory lexer. -/
theorem c4_witness :
    ((NewLexerBytes [97]).Err = none ∧
      ((NewLexerBytes [97]).Move 1).Err = some GoError.eof ∧
      (((NewLexerBytes [97]).Move 1).Move (-1)).Err = none) := by
  have h1 := (c4_err_frontier (NewLexerBytes [97]) rfl).1 (by decide)
  have h2 := (c4_err_frontier ((NewLexerBytes [97]).Move 1) rfl).2 (by decide)
  exact ⟨h1, h2.1, h2.2⟩

/-- The failing input for the growth-condition claim: a lexer whose
backing has capacity 4 and whose residual unconsumed length is
`d = len - pos = 2 - 1 = 1`, so `2*d = 2` does not exceed half the
capacity; the pool is empty and the source has one more byte. -/
def lexC2 : Lexer :=
  { rdr := fun _ _ => ([120], none)
    calls := 0
    err := none
    pool := BufferPool.empty
    bufId := 0
    buf := [97, 98]
    bufCap := 4
    pos := 1
    zend := 2 }

/-- Claim C2 (code bug, evaluated at the failing input): although
`2*d = 2 ≤ 4 = capacity`, the refill triggered by `Peek 0` requests a
grown block — the new backing has capacity `2*4+1 = 9`, a freshly
allocated block enters the pool and the allocation counter advances —
because `read` compares `2*d` against the package-level benchmark
counter `c = 0` (shifter_test.go) instead of the local capacity
`size`, contradicting its own comment
`// if the token is larger than half the buffer, increase buffer size`. -/
theorem c2_growth_bug_eval :
    2 * 1 ≤ 4 ∧ lexC2.bufCap = 4 ∧ lexC2.pool.pool.length = 0 ∧
    lexC2.pool.nextId = 1 ∧
    ((lexC2.Peek 0).map fun p =>
      ((p.2).bufCap, (p.2).pool.pool.length, (p.2).pool.nextId)) =
      some (9, 1, 2) := by
  refine ⟨by norm_num, rfl, rfl, rfl, by decide⟩

/-- Claim C9: `PeekRune` classifies the lead byte `b = Peek i` into exactly
four length classes — below `0xC0` length 1 returning the raw byte,
below `0xE0` length 2, below `0xF0` length 3, else length 4 — and
composes the code point from that many peeked bytes with the standard
6-bit continuation mask (`&0x3F`), with no validation of the
continuation bytes. -/
theorem c9_peekrune_classes (z z1 : Lexer) (i : Int) (b : Nat)
    (h : z.Peek i = some (b, z1)) :
    (b < 0xC0 → z.PeekRune i = some ((b, 1), z1)) ∧
    (0xC0 ≤ b → b < 0xE0 → ∀ b1 z2, z1.Peek (i + 1) = some (b1, z2) →
      z.PeekRune i =
        some ((((b &&& 0x1F) <<< 6) ||| (b1 &&& 0x3F), 2), z2)) ∧
    (0xE0 ≤ b → b < 0xF0 → ∀ b1 z2 b2 z3,
      z1.Peek (i + 1) = some (b1, z2) → z2.Peek (i + 2) = some (b2, z3) →
      z.PeekRune i =
        some ((((b &&& 0x0F) <<< 12) ||| ((b1 &&& 0x3F) <<< 6) |||
          (b2 &&& 0x3F), 3), z3)) ∧
    (0xF0 ≤ b → ∀ b1 z2 b2 z3 b3 z4,
      z1.Peek (i + 1) = some (b1, z2) → z2.Peek (i + 2) = some (b2, z3) →
      z3.Peek (i + 3) = some (b3, z4) →
      z.PeekRune i =
        some ((((b &&& 0x07) <<< 18) ||| ((b1 &&& 0x3F) <<< 12) |||
          ((b2 &&& 0x3F) <<< 6) ||| (b3 &&& 0x3F), 4), z4)) := by
  refine ⟨?_, ?_, ?_, ?_⟩
  · intro hb
    simp only [Lexer.PeekRune, h]
    rw [if_pos hb]
  · intro hb1 hb2 b1 z2 hp1
    simp only [Lexer.PeekRune, h, hp1]
    rw [if_neg (by omega), if_pos hb2]
  · intro hb1 hb2 b1 z2 b2 z3 hp1 hp2
    simp only [Lexer.PeekRune, h, hp1, hp2]
    rw [if_neg (by omega), if_neg (by omega), if_pos hb2]
  · intro hb1 b1 z2 b2 z3 b3 z4 hp1 hp2 hp3
    simp only [Lexer.PeekRune, h, hp1, hp2, hp3]
    rw [if_neg (by omega), if_neg (by omega), if_neg (by omega)]

/-- Scenario C's input for the rune witness: `"aæ†\U00100000"` as UTF-8
bytes, held fully in memory. -/
def lexC9 : Lexer :=
  NewLexerBytes [97, 0xC3, 0xA6, 0xE2, 0x80, 0xA0, 0xF4, 0x80, 0x80, 0x80]

/-- Witness for C9: the four length classes at concrete offsets of
scenario C ('a', 'æ', '†', U+100000). -/
theorem c9_witness :
    lexC9.PeekRune 0 = some ((97, 1), lexC9) ∧
    lexC9.PeekRune 1 = some ((230, 2), lexC9) ∧
    lexC9.PeekRune 3 = some ((8224, 3), lexC9) ∧
    lexC9.PeekRune 6 = some ((1048576, 4), lexC9) := by
  refine ⟨?_, ?_, ?_, ?_⟩
  · exact (c9_peekrune_classes lexC9 lexC9 0 97 rfl).1 (by norm_num)
  · exact (c9_peekrune_classes lexC9 lexC9 1 0xC3 rfl).2.1
      (by norm_num) (by norm_num) 0xA6 lexC9 rfl
  · exact (c9_peekrune_classes lexC9 lexC9 3 0xE2 rfl).2.2.1
      (by norm_num) (by norm_num) 0x80 lexC9 0xA0 lexC9 rfl rfl
  · exact (c9_peekrune_classes lexC9 lexC9 6 0xF4 rfl).2.2.2
      (by norm_num) 0x80 lexC9 0x80 lexC9 0x80 lexC9 rfl rfl rfl

/-! ## Sticky-error lemmas -/

theorem read_err_stuck {z : Lexer} {e : GoError} (v : Int)
    (he : z.err = some e) : z.read v = some (0, z) := by
  unfold Lexer.read
  rw [if_pos (by rw [he]; rfl)]

theorem peek_err_state {z : Lexer} {e : GoError} {i : Int} {b : Nat}
    {z1 : Lexer} (he : z.err = some e) (h : z.Peek i = some (b, z1)) :
    z1 = z ∧ b = 0 ∨ z1 = z := by
  simp only [Lexer.Peek] at h
  split at h
  · rw [read_err_stuck _ he] at h
    simp only [Option.some.injEq, Prod.mk.injEq] at h
    exact Or.inl ⟨h.2.symm, h.1.symm⟩
  · split at h
    · split at h
      · simp only [Option.some.injEq, Prod.mk.injEq] at h
        exact Or.inr h.2.symm
      · simp at h
    · simp at h

theorem peekRune_err_state {z : Lexer} {e : GoError} {i : Int}
    {r n : Nat} {z1 : Lexer} (he : z.err = some e)
    (h : z.PeekRune i = some ((r, n), z1)) : z1 = z := by
  have pe : ∀ {w : Lexer} {j : Int} {b : Nat} {w' : Lexer}, w.err = some e →
      w.Peek j = some (b, w') → w' = w := by
    intro w j b w' hw hp
    rcases peek_err_state hw hp with ⟨h1, -⟩ | h1 <;> exact h1
  simp only [Lexer.PeekRune] at h
  split at h
  · simp at h
  · rename_i cb za heqa
    have hza : za = z := pe he heqa
    have hea : za.err = some e := hza.symm ▸ he
    split at h
    · simp only [Option.some.injEq, Prod.mk.injEq] at h
      exact h.2.symm.trans hza
    · split at h
      · split at h
        · simp at h
        · rename_i c1 zb heqb
          have hzb : zb = za := pe hea heqb
          simp only [Option.some.injEq, Prod.mk.injEq] at h
          exact h.2.symm.trans (hzb.trans hza)
      · split at h
        · split at h
          · simp at h
          · rename_i c1 zb heqb
            have hzb : zb = za := pe hea heqb
            have heb : zb.err = some e := hzb.symm ▸ hea
            split at h
            · simp at h
            · rename_i c2 zc heqc
              have hzc : zc = zb := pe heb heqc
              simp only [Option.some.injEq, Prod.mk.injEq] at h
              exact h.2.symm.trans ((hzc.trans hzb).trans hza)
        · split at h
          · simp at h
          · rename_i c1 zb heqb
            have hzb : zb = za := pe hea heqb
            have heb : zb.err = some e := hzb.symm ▸ hea
            split at h
            · simp at h
            · rename_i c2 zc heqc
              have hzc : zc = zb := pe heb heqc
              have hec : zc.err = some e := hzc.symm ▸ heb
              split at h
              · simp at h
              · rename_i c3 zd heqd
                have hzd : zd = zc := pe hec heqd
                simp only [Option.some.injEq, Prod.mk.injEq] at h
                exact h.2.symm.trans (((hzd.trans hzc).trans hzb).trans hza)

theorem step_err_calls {z : Lexer} {op : Op} {z' : Lexer} {e : GoError}
    (he : z.err = some e) (h : z.step op = some z') :
    z'.err = some e ∧ z'.calls = z.calls := by
  cases op with
  | peek i =>
    simp only [Lexer.step, Option.map_eq_some'] at h
    obtain ⟨⟨b, z1⟩, hp, hz⟩ := h
    have : z1 = z := by
      rcases peek_err_state he hp with ⟨h1, -⟩ | h1 <;> exact h1
    subst hz; rw [this]; exact ⟨he, rfl⟩
  | peekRune i =>
    simp only [Lexer.step, Option.map_eq_some'] at h
    obtain ⟨⟨⟨r, n⟩, z1⟩, hp, hz⟩ := h
    have := peekRune_err_state he hp
    subst hz; rw [this]; exact ⟨he, rfl⟩
  | move n =>
    simp only [Lexer.step, Option.some.injEq] at h
    subst h; exact ⟨he, rfl⟩
  | moveTo n =>
    simp only [Lexer.step, Option.some.injEq] at h
    subst h; exact ⟨he, rfl⟩
  | pos =>
    simp only [Lexer.step, Option.some.injEq] at h
    subst h; exact ⟨he, rfl⟩
  | bytes =>
    simp only [Lexer.step, Option.map_eq_some'] at h
    obtain ⟨b, -, hz⟩ := h
    subst hz; exact ⟨he, rfl⟩
  | shift =>
    simp only [Lexer.step, Lexer.Shift] at h
    cases hB : z.Bytes with
    | none => rw [hB] at h; simp at h
    | some bs =>
      rw [hB] at h
      simp only [Option.map_some', Option.some.injEq] at h
      subst h; exact ⟨he, rfl⟩
  | free n =>
    simp only [Lexer.step, Lexer.Free, Option.map_eq_some'] at h
    obtain ⟨p, -, hz⟩ := h
    subst hz; exact ⟨he, rfl⟩
  | skip =>
    simp only [Lexer.step, Lexer.Skip, Option.some.injEq] at h
    subst h; exact ⟨he, rfl⟩

theorem run_err_calls {ops : List Op} {z z' : Lexer} {e : GoError}
    (he : z.err = some e) (h : z.run ops = some z') :
    z'.err = some e ∧ z'.calls = z.calls := by
  induction ops generalizing z with
  | nil =>
    simp only [Lexer.run, Option.some.injEq] at h
    exact h ▸ ⟨he, rfl⟩
  | cons op ops ih =>
    simp only [Lexer.run] at h
    split at h
    · simp at h
    · rename_i z1 hstep
      obtain ⟨he1, hc1⟩ := step_err_calls he hstep
      obtain ⟨he2, hc2⟩ := ih he1 h
      exact ⟨he2, hc2.trans hc1⟩

/-- Claim C5: once the error state is set it is sticky for the remaining
lifetime of the instance: after any sequence of public operations the
error is still the same, the source read function has not been invoked
again (the call counter is unchanged), and every peek at an offset past
the buffered data returns the zero byte leaving the state untouched. -/
theorem c5_sticky_error (z : Lexer) (e : GoError) (ops : List Op)
    (z' : Lexer) (he : z.err = some e) (hrun : z.run ops = some z') :
    z'.err = some e ∧ z'.calls = z.calls ∧
    ∀ i : Int, (z'.buf.length : Int) ≤ i + z'.zend →
      z'.Peek i = some (0, z') := by
  obtain ⟨he1, hc1⟩ := run_err_calls he hrun
  refine ⟨he1, hc1, fun i htrig => ?_⟩
  simp only [Lexer.Peek]
  rw [if_pos htrig]
  exact read_err_stuck _ he1

/-- The post-error state used by the C5 witness: a drained in-memory
lexer after a `move` and a `skip`. -/
def lexC5 : Lexer := ((NewLexerBytes [97]).Move 1).Skip

/-- Witness for C5: concrete trace from an in-memory (EOF-from-birth)
lexer; after `move(1); skip()` the error is still EOF, the source was
never called, and `Peek 5` (past the data) returns the zero byte. -/
theorem c5_witness :
    lexC5.err = some GoError.eof ∧ lexC5.calls = 0 ∧
    lexC5.Peek 5 = some (0, lexC5) := by
  have h := c5_sticky_error (NewLexerBytes [97]) GoError.eof
    [Op.move 1, Op.skip] lexC5 rfl rfl
  exact ⟨h.1, h.2.1, h.2.2 5 (by decide)⟩

theorem read_pos {z : Lexer} {e : Int} {b : Nat} {z' : Lexer}
    (h : z.read e = some (b, z')) : z'.Pos = z.Pos := by
  simp only [Lexer.read] at h
  split at h
  · simp only [Option.some.injEq, Prod.mk.injEq] at h
    rw [← h.2]
  · split at h
    · split at h
      · simp at h
      · rename_i pool1 buf1 heq
        split at h
        · split at h
          · split at h <;>
            · simp only [Option.some.injEq, Prod.mk.injEq] at h
              rw [← h.2]
              simp only [Lexer.Pos]
              omega
          · split at h
            · split at h
              · rename_i b2 heq2
                simp only [Option.some.injEq, Prod.mk.injEq] at h
                rw [← h.2]
                simp only [Lexer.Pos]
                omega
              · simp at h
            · simp at h
        · simp at h
    · simp at h

theorem peek_pos {z : Lexer} {i : Int} {b : Nat} {z' : Lexer}
    (h : z.Peek i = some (b, z')) : z'.Pos = z.Pos := by
  simp only [Lexer.Peek] at h
  split at h
  · exact read_pos h
  · split at h
    · split at h
      · simp only [Option.some.injEq, Prod.mk.injEq] at h
        rw [← h.2]
      · simp at h
    · simp at h

theorem peek_zero_idem {z : Lexer} {b : Nat} {z' : Lexer}
    (h : z.Peek 0 = some (b, z')) : z'.Peek 0 = some (b, z') := by
  simp only [Lexer.Peek] at h ⊢
  split at h
  · rename_i htrig
    simp only [Lexer.read] at h
    split at h
    · rename_i herr
      simp only [Option.some.injEq, Prod.mk.injEq] at h
      obtain ⟨hb, hz⟩ := h
      subst hz
      rw [if_pos htrig]
      simp only [Lexer.read]
      rw [if_pos herr, ← hb]
    · rename_i herr
      split at h
      · rename_i hguard
        split at h
        · simp at h
        · rename_i pool1 buf1 heq
          split at h
          · rename_i hd
            split at h
            · rename_i hn
              -- n = 0: the refill recorded an error; peeking again hits the
              -- sticky-error early return
              split at h
              · rename_i hsome
                simp only [Option.some.injEq, Prod.mk.injEq] at h
                obtain ⟨hb, hz⟩ := h
                subst hz
                rw [if_pos (by
                  dsimp only
                  simp only [List.length_append, List.length_drop, hn,
                    List.length_map, List.length_take]
                  omega)]
                simp only [Lexer.read]
                rw [if_pos hsome, ← hb]
              · simp only [Option.some.injEq, Prod.mk.injEq] at h
                obtain ⟨hb, hz⟩ := h
                subst hz
                rw [if_pos (by
                  dsimp only
                  simp only [List.length_append, List.length_drop, hn,
                    List.length_map, List.length_take]
                  omega)]
                simp only [Lexer.read]
                rw [if_pos (show (some GoError.eof).isSome = true from rfl),
                  ← hb]
            · rename_i hn
              split at h
              · rename_i he2
                split at h
                · rename_i b2 heq2
                  simp only [Option.some.injEq, Prod.mk.injEq] at h
                  obtain ⟨hb, hz⟩ := h
                  subst hz
                  obtain ⟨hlt, -⟩ := List.get?_eq_some.mp heq2
                  rw [if_neg (by
                    dsimp only
                    omega)]
                  rw [if_pos (by dsimp only; omega)]
                  dsimp only
                  rw [show (0 + (z.zend - z.pos)).toNat = (0 + z.zend - z.pos).toNat
                    by omega]
                  rw [heq2, hb]
                · simp at h
              · simp at h
          · simp at h
      · simp at h
  · rename_i htrig
    split at h
    · rename_i hge
      split at h
      · rename_i b2 heq2
        simp only [Option.some.injEq, Prod.mk.injEq] at h
        obtain ⟨hb, hz⟩ := h
        subst hz
        rw [if_neg htrig, if_pos hge, heq2, hb]
      · simp at h
    · simp at h

/-- Claim C7: round-trip of `pos`/`moveTo`.  From any state, capture the
mark `m = Pos()` and observe `Peek 0`; after `move(k)` followed by
`moveTo(m)` the state is restored exactly (refill included, since a
refill re-bases `pos` and `end` together and `Pos` is invariant under
re-basing), so `Peek 0` returns the same byte. -/
theorem c7_pos_moveto_roundtrip (z z1 : Lexer) (b : Nat) (m k : Int)
    (hm : m = z.Pos) (hpk : z.Peek 0 = some (b, z1)) :
    ((z1.Move k).MoveTo m).Peek 0 = some (b, z1) := by
  have hp : z1.Pos = z.Pos := peek_pos hpk
  have hm1 : m = z1.zend - z1.pos := by
    rw [hm, ← hp]; rfl
  have hstate : (z1.Move k).MoveTo m = z1 := by
    cases z1 with
    | mk rdr calls err pool bufId buf bufCap pos zend =>
      simp only [Lexer.Move, Lexer.MoveTo, Lexer.Pos] at hm1 ⊢
      congr 1
      omega
  rw [hstate]
  exact peek_zero_idem hpk

/-- Witness for C7 on an in-memory lexer at frontier 1 with `k = 7`. -/
theorem c7_witness :
    ((((NewLexerBytes [97, 98, 99]).Move 1).Move 7).MoveTo 1).Peek 0 =
      some (98, (NewLexerBytes [97, 98, 99]).Move 1) :=
  c7_pos_moveto_roundtrip ((NewLexerBytes [97, 98, 99]).Move 1)
    ((NewLexerBytes [97, 98, 99]).Move 1) 98 1 7 rfl rfl

theorem read_bytes {z : Lexer} {e : Int} {b : Nat} {z' : Lexer}
    (hI : LexInv z) (h : z.read e = some (b, z')) : z'.Bytes = z.Bytes := by
  obtain ⟨h0, h1, h2, h3⟩ := hI
  simp only [Lexer.read] at h
  split at h
  · simp only [Option.some.injEq, Prod.mk.injEq] at h
    rw [← h.2]
  · split at h
    · split at h
      · simp at h
      · rename_i pool1 buf1 heq
        split at h
        · rename_i hd
          split at h
          · split at h <;>
            · simp only [Option.some.injEq, Prod.mk.injEq] at h
              obtain ⟨-, hz⟩ := h
              subst hz
              simp only [Lexer.Bytes]
              rw [if_pos ⟨le_refl (0 : Int), by omega, by
                simp only [List.length_append, List.length_drop,
                  List.length_map, List.length_take]
                omega⟩]
              rw [if_pos ⟨h0, h1, h2⟩]
              congr 1
              rw [Int.toNat_zero, List.drop_zero]
              rw [List.take_append_of_le_length (by
                simp only [List.length_drop]
                omega)]
              rw [List.take_drop]
              congr 2
              omega
          · split at h
            · split at h
              · rename_i b2 heq2
                simp only [Option.some.injEq, Prod.mk.injEq] at h
                obtain ⟨-, hz⟩ := h
                subst hz
                simp only [Lexer.Bytes]
                rw [if_pos ⟨le_refl (0 : Int), by omega, by
                  simp only [List.length_append, List.length_drop,
                    List.length_map, List.length_take]
                  omega⟩]
                rw [if_pos ⟨h0, h1, h2⟩]
                congr 1
                rw [Int.toNat_zero, List.drop_zero]
                rw [List.take_append_of_le_length (by
                  simp only [List.length_drop]
                  omega)]
                rw [List.take_drop]
                congr 2
                omega
              · simp at h
            · simp at h
        · simp at h
    · simp at h

/-- Claim C3: a peek — whether it hits the buffer, refills in place, or
refills with reallocation — never changes the current selection: the
byte sequence denoted by `Bytes` and the relative mark `Pos` are the
same before and after, because the refill copies the residual to the
front of the new backing and re-bases `pos` and `end` by subtracting the
old `pos`. -/
theorem c3_growth_preserves_selection (z : Lexer) (i : Int) (b : Nat)
    (z' : Lexer) (hI : LexInv z) (h : z.Peek i = some (b, z')) :
    z'.Bytes = z.Bytes ∧ z'.Pos = z.Pos := by
  refine ⟨?_, peek_pos h⟩
  simp only [Lexer.Peek] at h
  split at h
  · exact read_bytes hI h
  · split at h
    · split at h
      · simp only [Option.some.injEq, Prod.mk.injEq] at h
        rw [← h.2]
      · simp at h
    · simp at h

/-- C3 witness input: a streaming lexer holding `"abcd"` at capacity 4
with selection `[0,3)`; `Peek 2` forces a reallocation refill. -/
def lexC3 : Lexer :=
  { rdr := fun _ _ => ([101, 102, 103, 104], none)
    calls := 0
    err := none
    pool := BufferPool.empty
    bufId := 0
    buf := [97, 98, 99, 100]
    bufCap := 4
    pos := 0
    zend := 3 }

/-- The state after `lexC3.Peek 2`: the backing was reallocated (grown
to capacity 12, the old block retired into the pool) with the residual
copied to the front. -/
def lexC3after : Lexer :=
  { rdr := fun _ _ => ([101, 102, 103, 104], none)
    calls := 1
    err := none
    pool := { pool := [{ buf := { id := 0, len := 0, cap := 4 },
                         next := 0, active := true }]
              head := 1
              tail := 1
              pos := 0
              nextId := 2 }
    bufId := 1
    buf := [97, 98, 99, 100, 101, 102, 103, 104]
    bufCap := 12
    pos := 0
    zend := 3 }

/-- Witness for C3: the reallocation-forcing peek leaves `Bytes` (the
selection `"abc"`) and `Pos` unchanged. -/
theorem c3_witness :
    lexC3.Peek 2 = some (102, lexC3after) ∧
    lexC3after.Bytes = lexC3.Bytes ∧ lexC3after.Pos = lexC3.Pos := by
  refine ⟨rfl, ?_⟩
  exact c3_growth_preserves_selection lexC3 2 102 lexC3after (by decide) rfl

/-! ## Pool `swap` lemmas -/

theorem findSwap_spec {l : List Block} {size : Int} {j i : Nat}
    (h : findSwap l size j = some i) :
    j ≤ i ∧ ∃ blk, l.get? (i - j) = some blk ∧ blk.active = false ∧
      size ≤ (blk.buf.cap : Int) := by
  induction l generalizing j with
  | nil => simp [findSwap] at h
  | cons hd tl ih =>
    simp only [findSwap] at h
    split at h
    · rename_i hcond
      simp only [Option.some.injEq] at h
      subst h
      exact ⟨le_refl j, hd, by simp, hcond.1, hcond.2⟩
    · obtain ⟨hj, blk, hget, hact, hcap⟩ := ih h
      refine ⟨by omega, blk, ?_, hact, hcap⟩
      rw [show i - j = (i - (j + 1)) + 1 by omega]
      simpa using hget

theorem swapCommon_isSome (z : BufferPool) (idx : Nat) (nb ob : Buf)
    (hwf : PoolWf z) : (swapCommon z idx nb ob).isSome = true := by
  simp only [swapCommon]
  by_cases hh : z.head = 0
  · rw [if_pos hh]
    rfl
  · rw [if_neg hh]
    have hlen : z.head - 1 <
        (z.pool.set idx { buf := ob, next := 0, active := true }).length := by
      simp only [List.length_set]
      unfold PoolWf at hwf
      omega
    rw [List.get?_eq_get hlen]
    rfl

theorem swapCommon_snd {z : BufferPool} {idx : Nat} {nb ob : Buf}
    {p' : BufferPool} {r : Buf}
    (h : swapCommon z idx nb ob = some (p', r)) :
    r = { nb with len := 0 } ∧ p'.pool.length = z.pool.length ∧
      p'.nextId = z.nextId := by
  simp only [swapCommon] at h
  split at h
  · simp only [Option.some.injEq, Prod.mk.injEq] at h
    obtain ⟨hp, hr⟩ := h
    refine ⟨hr.symm, by rw [← hp]; simp [List.length_set],
      by rw [← hp]⟩
  · split at h
    · simp at h
    · simp only [Option.some.injEq, Prod.mk.injEq] at h
      obtain ⟨hp, hr⟩ := h
      refine ⟨hr.symm, by rw [← hp]; simp [List.length_set],
      by rw [← hp]⟩

theorem swap_isSome (z : BufferPool) (ob : Buf) (size : Int)
    (hwf : PoolWf z) : (z.swap ob size).isSome = true := by
  simp only [BufferPool.swap]
  split
  · rename_i i hfind
    obtain ⟨-, blk, hget, -, -⟩ := findSwap_spec hfind
    simp only [Nat.sub_zero] at hget
    rw [hget]
    exact swapCommon_isSome _ _ _ _ hwf
  · split
    · rfl
    · refine swapCommon_isSome _ _ _ _ ?_
      unfold PoolWf at hwf ⊢
      simp only [List.length_append, List.length_singleton]
      omega

theorem swap_cap {z : BufferPool} {ob : Buf} {size : Int} {p' : BufferPool}
    {r : Buf} (hs : 0 ≤ size) (h : z.swap ob size = some (p', r)) :
    size ≤ (r.cap : Int) ∧ r.len = 0 := by
  simp only [BufferPool.swap] at h
  split at h
  · rename_i i hfind
    obtain ⟨-, blk, hget, -, hcap⟩ := findSwap_spec hfind
    simp only [Nat.sub_zero] at hget
    rw [hget] at h
    obtain ⟨hr, -, -⟩ := swapCommon_snd h
    subst hr
    exact ⟨hcap, rfl⟩
  · split at h
    · rename_i hcond
      simp only [Option.some.injEq, Prod.mk.injEq] at h
      obtain ⟨-, hr⟩ := h
      rw [← hr]
      exact ⟨hcond.2.2, rfl⟩
    · obtain ⟨hr, -, -⟩ := swapCommon_snd h
      subst hr
      refine ⟨?_, rfl⟩
      simp only
      omega

/-- Claim C6: when the pull during a refill yields zero new bytes, the
triggering peek returns the sentinel zero byte, exactly one source call
is made, and the error state becomes EOF ("exhausted") unless the source
itself reported a distinct error, which is kept. -/
theorem c6_zero_pull_exhausts (z : Lexer) (i : Int) (eo : Option GoError)
    (hI : LexInv z) (hwf : PoolWf z.pool) (herr : z.err = none)
    (htrig : (z.buf.length : Int) ≤ i + z.zend)
    (hrdr : ∀ sz, (z.rdr z.calls sz).1.take sz = [] ∧
      (z.rdr z.calls sz).2 = eo) :
    ((z.Peek i).map fun p => (p.1, (p.2).err, (p.2).calls)) =
      some (0, some (eo.getD GoError.eof), z.calls + 1) := by
  obtain ⟨h0, h1, h2, h3⟩ := hI
  have hP : z.Peek i = z.read (i + z.zend) := by
    simp only [Lexer.Peek]
    rw [if_pos htrig]
  rw [hP]
  simp only [Lexer.read]
  rw [if_neg (by rw [herr]; simp)]
  rw [if_pos ⟨h0, by omega⟩]
  have hsz : (0 : Int) ≤
      (if 2 * ((z.buf.length : Int) - z.pos) > c
       then 2 * (z.bufCap : Int) + ((z.buf.length : Int) - z.pos)
       else (z.bufCap : Int)) := by
    split <;> omega
  have hdsz : ((z.buf.length : Int) - z.pos) ≤
      (if 2 * ((z.buf.length : Int) - z.pos) > c
       then 2 * (z.bufCap : Int) + ((z.buf.length : Int) - z.pos)
       else (z.bufCap : Int)) := by
    split <;> omega
  cases hswap : z.pool.swap { id := z.bufId, len := z.pos.toNat, cap := z.bufCap }
      (if 2 * ((z.buf.length : Int) - z.pos) > c
       then 2 * (z.bufCap : Int) + ((z.buf.length : Int) - z.pos)
       else (z.bufCap : Int)) with
  | none =>
    have hs := swap_isSome z.pool
      { id := z.bufId, len := z.pos.toNat, cap := z.bufCap }
      (if 2 * ((z.buf.length : Int) - z.pos) > c
       then 2 * (z.bufCap : Int) + ((z.buf.length : Int) - z.pos)
       else (z.bufCap : Int)) hwf
    rw [hswap] at hs
    simp at hs
  | some pr =>
    obtain ⟨pool1, buf1⟩ := pr
    have hcap := (swap_cap hsz hswap).1
    simp only [hswap]
    rw [if_pos ⟨by omega, by omega, by omega⟩]
    rw [if_pos (by rw [(hrdr _).1]; rfl)]
    rw [(hrdr _).2]
    cases eo with
    | none => simp
    | some e => simp

/-- Scenario D input: the streaming lexer over an empty source, before
its priming peek. -/
def lexC6 : Lexer :=
  { rdr := fun _ _ => ([], none)
    calls := 0
    err := none
    pool := BufferPool.empty
    bufId := 0
    buf := []
    bufCap := 4096
    pos := 0
    zend := 0 }

/-- Witness for C6: on empty input the (priming) `Peek 0` returns the
zero byte after one source call and records EOF; `NewLexerStream` is
exactly that peek, and `Err` on the resulting state reports EOF. -/
theorem c6_witness :
    ((lexC6.Peek 0).map fun p => (p.1, (p.2).err, (p.2).calls)) =
      some (0, some GoError.eof, 1) ∧
    NewLexerStream (fun _ _ => ([], none)) 4096 =
      (lexC6.Peek 0).map (·.2) ∧
    ((lexC6.Peek 0).map fun p => (p.2).Err) = some (some GoError.eof) := by
  refine ⟨?_, rfl, by decide⟩
  exact c6_zero_pull_exhausts lexC6 0 none (by decide) (by decide) rfl
    (by decide) (fun sz => ⟨List.take_nil, rfl⟩)

theorem read_total (z : Lexer) (v : Int) (hI : LexInv z)
    (hwf : PoolWf z.pool) (herr : z.err = none) (hv : z.pos ≤ v)
    (hsuff : ∀ sz : Nat,
      ((z.rdr z.calls sz).1.take sz).length = 0 ∨
      v - z.pos < ((z.buf.length : Int) - z.pos) +
        ((z.rdr z.calls sz).1.take sz).length) :
    ∃ b z', z.read v = some (b, z') ∧ z'.calls = z.calls + 1 := by
  obtain ⟨h0, h1, h2, h3⟩ := hI
  simp only [Lexer.read]
  rw [if_neg (by rw [herr]; simp)]
  rw [if_pos ⟨h0, by omega⟩]
  have hsz : (0 : Int) ≤
      (if 2 * ((z.buf.length : Int) - z.pos) > c
       then 2 * (z.bufCap : Int) + ((z.buf.length : Int) - z.pos)
       else (z.bufCap : Int)) := by
    split <;> omega
  cases hswap : z.pool.swap { id := z.bufId, len := z.pos.toNat, cap := z.bufCap }
      (if 2 * ((z.buf.length : Int) - z.pos) > c
       then 2 * (z.bufCap : Int) + ((z.buf.length : Int) - z.pos)
       else (z.bufCap : Int)) with
  | none =>
    have hs := swap_isSome z.pool
      { id := z.bufId, len := z.pos.toNat, cap := z.bufCap }
      (if 2 * ((z.buf.length : Int) - z.pos) > c
       then 2 * (z.bufCap : Int) + ((z.buf.length : Int) - z.pos)
       else (z.bufCap : Int)) hwf
    rw [hswap] at hs
    simp at hs
  | some pr =>
    obtain ⟨pool1, buf1⟩ := pr
    have hdsz : ((z.buf.length : Int) - z.pos) ≤
        (if 2 * ((z.buf.length : Int) - z.pos) > c
         then 2 * (z.bufCap : Int) + ((z.buf.length : Int) - z.pos)
         else (z.bufCap : Int)) := by
      split <;> omega
    have hcap := (swap_cap hsz hswap).1
    simp only [hswap]
    rw [if_pos ⟨by omega, by omega, by omega⟩]
    by_cases hn : ((List.take (buf1.cap - ((z.buf.length : Int) - z.pos).toNat)
        (z.rdr z.calls (buf1.cap - ((z.buf.length : Int) - z.pos).toNat)).1).map
          (· % 256)).length = 0
    · rw [if_pos hn]
      split
      · exact ⟨0, _, rfl, rfl⟩
      · exact ⟨0, _, rfl, rfl⟩
    · rw [if_neg hn]
      rw [if_pos (by omega)]
      have hbound : (v - z.pos).toNat <
          (List.drop z.pos.toNat z.buf ++
            (List.take (buf1.cap - ((z.buf.length : Int) - z.pos).toNat)
              (z.rdr z.calls (buf1.cap - ((z.buf.length : Int) - z.pos).toNat)).1).map
                (· % 256)).length := by
        rcases hsuff (buf1.cap - ((z.buf.length : Int) - z.pos).toNat) with hc | hc
        · exact absurd (by simpa using hc) hn
        · simp only [List.length_append, List.length_drop, List.length_map]
          simp only [List.length_map] at hn
          omega
      rw [List.get?_eq_get hbound]
      exact ⟨_, _, rfl, rfl⟩

/-- Claim C10 (amended): `Peek` never goes out of bounds — returning a
buffered byte or the zero sentinel after at most one source call, with
exactly one call when a refill is triggered — *provided* the single
source read during a refill either returns zero bytes or supplies
enough to cover the requested index; a short-but-nonzero read makes the
subsequent index into the refilled buffer exceed its length (a panic,
see the counterexample). -/
theorem c10_peek_total_amended (z : Lexer) (i : Int)
    (hI : LexInv z) (hwf : PoolWf z.pool) (herr : z.err = none) (hi : 0 ≤ i)
    (hsuff : ∀ sz : Nat,
      ((z.rdr z.calls sz).1.take sz).length = 0 ∨
      (i + z.zend) - z.pos < ((z.buf.length : Int) - z.pos) +
        ((z.rdr z.calls sz).1.take sz).length) :
    ∃ b z', z.Peek i = some (b, z') ∧ z'.calls ≤ z.calls + 1 ∧
      ((z.buf.length : Int) ≤ i + z.zend → z'.calls = z.calls + 1) := by
  obtain ⟨h0, h1, h2, h3⟩ := hI
  simp only [Lexer.Peek]
  by_cases htrig : (z.buf.length : Int) ≤ i + z.zend
  · rw [if_pos htrig]
    obtain ⟨b, z', hr, hc⟩ :=
      read_total z (i + z.zend) ⟨h0, h1, h2, h3⟩ hwf herr (by omega) hsuff
    exact ⟨b, z', hr, by omega, fun _ => hc⟩
  · rw [if_neg htrig]
    rw [if_pos (by omega)]
    have hlt : (i + z.zend).toNat < z.buf.length := by omega
    rw [List.get?_eq_get hlt]
    exact ⟨_, z, rfl, by omega, fun hc => absurd hc htrig⟩

/-- C10 counterexample input: an error-free lexer with empty buffered
data whose source dribbles a single byte per read. -/
def lexC10 : Lexer :=
  { rdr := fun _ _ => ([97], none)
    calls := 0
    err := none
    pool := BufferPool.empty
    bufId := 0
    buf := []
    bufCap := 4
    pos := 0
    zend := 0 }

/-- Claim C10 counterexample: with no error recorded, `Peek 1` triggers a
refill whose single read returns one byte (fewer than the two needed),
and the subsequent index `z.buf[end]` is out of range — a Go panic,
`none` in the model — so `Peek` is not total. -/
theorem c10_counterexample :
    lexC10.err = none ∧ lexC10.Peek 1 = none := ⟨rfl, rfl⟩

/-- Witness for the amended C10: `Peek 0` on the same lexer succeeds
(the single one-byte read covers index 0) with exactly one source
call. -/
theorem c10_witness :
    (lexC10.Peek 0).isSome = true ∧
    ((lexC10.Peek 0).map fun p => (p.2).calls) = some 1 := by
  obtain ⟨b, z', hp, -, hc⟩ := c10_peek_total_amended lexC10 0 (by decide)
    (by decide) rfl (by omega)
    (fun sz => by
      cases sz with
      | zero => exact Or.inl rfl
      | succ k => exact Or.inr (by simp [lexC10]))
  rw [hp]
  exact ⟨rfl, by rw [Option.map_some', hc (by decide)]; rfl⟩

/-- One unfolding of the `free` drain loop (definitional). -/
theorem freeLoop_succ (fuel : Nat) (z : BufferPool) :
    freeLoop (fuel + 1) z =
      if z.tail = 0 then some z
      else
        match z.pool.get? (z.tail - 1) with
        | none => none
        | some blk =>
          if (blk.buf.len : Int) ≤ z.pos then
            freeLoop fuel
              { z with
                pos := z.pos - blk.buf.len
                pool := z.pool.set (z.tail - 1) { blk with active := false }
                tail := blk.next }
          else some z := rfl

/-- Claim C8: pool reclamation.  `free(n)` advances the running consumed
offset into the tail block; when that block's length is fully consumed
it is marked inactive and `tail` advances to its `next` (resetting
`head` when the chain empties, i.e. `next = 0`; stopping when the next
block is not yet drained).  Once the retired block `i` is inactive, a
subsequent `swap` whose requested size fits the block's capacity (and
for which block `i` is the first inactive fit) reuses that block's
storage — the returned backing is that block's buffer — performing no
new allocation: the pool length and the allocation counter are
unchanged. -/
theorem c8_pool_reclamation (p p' : BufferPool) (n : Int) (i : Nat)
    (blk : Block) (old : Buf) (size : Int)
    (hwf : PoolWf p)
    (htail : p.tail = i + 1)
    (hget : p.pool.get? i = some blk)
    (hcons : (blk.buf.len : Int) ≤ p.pos + n)
    (hstop : blk.next = 0 ∨ ∃ j b2, blk.next = j + 1 ∧
      p.pool.get? j = some b2 ∧ p.pos + n - blk.buf.len < (b2.buf.len : Int))
    (hfree : p.free n = some p')
    (_hsz : 0 ≤ size ∧ size ≤ (blk.buf.cap : Int))
    (hfirst : findSwap p'.pool size 0 = some i) :
    p'.pool.get? i = some { blk with active := false } ∧
    p'.tail = blk.next ∧
    p'.pos = p.pos + n - blk.buf.len ∧
    (blk.next = 0 → p'.head = 0) ∧
    ∃ p'' ret, p'.swap old size = some (p'', ret) ∧
      ret = { blk.buf with len := 0 } ∧
      p''.pool.length = p'.pool.length ∧ p''.nextId = p'.nextId := by
  have hi : i < p.pool.length := (List.get?_eq_some.mp hget).1
  simp only [BufferPool.free] at hfree
  rw [freeLoop_succ] at hfree
  dsimp only at hfree
  rw [htail] at hfree
  rw [if_neg (by omega)] at hfree
  simp only [Nat.add_sub_cancel] at hfree
  rw [hget] at hfree
  dsimp only at hfree
  rw [if_pos hcons] at hfree
  rw [show p.pool.length = (p.pool.length - 1) + 1 by omega] at hfree
  rw [freeLoop_succ] at hfree
  dsimp only at hfree
  have hgeti : (p.pool.set i { blk with active := false }).get? i =
      some { blk with active := false } := by
    rw [List.get?_set_of_lt _ _ hi]
    rw [if_pos rfl]
  rcases hstop with h0 | ⟨j, b2, hnext, hgetj, hlt2⟩
  · rw [if_pos h0, Option.map_some'] at hfree
    dsimp only at hfree
    rw [if_pos h0] at hfree
    simp only [Option.some.injEq] at hfree
    subst hfree
    refine ⟨hgeti, rfl, rfl, fun _ => rfl, ?_⟩
    simp only [BufferPool.swap]
    rw [hfirst]
    dsimp only
    rw [hgeti]
    dsimp only
    have hwf' : PoolWf (⟨p.pool.set i { blk with active := false },
        0, blk.next, p.pos + n - (blk.buf.len : Int), p.nextId⟩ :
          BufferPool) := by
      unfold PoolWf
      dsimp only
      omega
    obtain ⟨pr, hsc⟩ := Option.isSome_iff_exists.mp
      (swapCommon_isSome _ i blk.buf old hwf')
    obtain ⟨pool2, ret⟩ := pr
    obtain ⟨hret, hlen, hnid⟩ := swapCommon_snd hsc
    refine ⟨pool2, ret, hsc, hret, ?_, hnid⟩
    rw [hlen]
  · have hj : j < p.pool.length := (List.get?_eq_some.mp hgetj).1
    rw [if_neg (by rw [hnext]; omega)] at hfree
    rw [show blk.next - 1 = j by omega] at hfree
    rw [List.get?_set_of_lt _ _ hj] at hfree
    by_cases hij : i = j
    · rw [if_pos hij] at hfree
      dsimp only at hfree
      have hb2 : b2 = blk := by
        rw [hij] at hget
        rw [hget] at hgetj
        exact (Option.some.inj hgetj).symm
      rw [if_neg (by rw [hb2] at hlt2; omega)] at hfree
      rw [Option.map_some'] at hfree
      dsimp only at hfree
      rw [if_neg (by rw [hnext]; omega)] at hfree
      simp only [Option.some.injEq] at hfree
      subst hfree
      refine ⟨hgeti, rfl, rfl,
        fun hc => absurd (hnext ▸ hc) (by omega), ?_⟩
      simp only [BufferPool.swap]
      rw [hfirst]
      dsimp only
      rw [hgeti]
      dsimp only
      have hwf' : PoolWf (⟨p.pool.set i { blk with active := false },
          p.head, blk.next, p.pos + n - (blk.buf.len : Int), p.nextId⟩ :
            BufferPool) := by
        unfold PoolWf at hwf ⊢
        dsimp only
        simp only [List.length_set]
        omega
      obtain ⟨pr, hsc⟩ := Option.isSome_iff_exists.mp
        (swapCommon_isSome _ i blk.buf old hwf')
      obtain ⟨pool2, ret⟩ := pr
      obtain ⟨hret, hlen, hnid⟩ := swapCommon_snd hsc
      refine ⟨pool2, ret, hsc, hret, ?_, hnid⟩
      rw [hlen]
    · rw [if_neg hij] at hfree
      rw [hgetj] at hfree
      dsimp only at hfree
      rw [if_neg (by omega)] at hfree
      rw [Option.map_some'] at hfree
      dsimp only at hfree
      rw [if_neg (by rw [hnext]; omega)] at hfree
      simp only [Option.some.injEq] at hfree
      subst hfree
      refine ⟨hgeti, rfl, rfl,
        fun hc => absurd (hnext ▸ hc) (by omega), ?_⟩
      simp only [BufferPool.swap]
      rw [hfirst]
      dsimp only
      rw [hgeti]
      dsimp only
      have hwf' : PoolWf (⟨p.pool.set i { blk with active := false },
          p.head, blk.next, p.pos + n - (blk.buf.len : Int), p.nextId⟩ :
            BufferPool) := by
        unfold PoolWf at hwf ⊢
        dsimp only
        simp only [List.length_set]
        omega
      obtain ⟨pr, hsc⟩ := Option.isSome_iff_exists.mp
        (swapCommon_isSome _ i blk.buf old hwf')
      obtain ⟨pool2, ret⟩ := pr
      obtain ⟨hret, hlen, hnid⟩ := swapCommon_snd hsc
      refine ⟨pool2, ret, hsc, hret, ?_, hnid⟩
      rw [hlen]

/-- C8 witness input: a pool whose single retired block (identity 5,
3 bytes long, capacity 8) is the whole chain. -/
def blkC8 : Block :=
  { buf := { id := 5, len := 3, cap := 8 }, next := 0, active := true }

def poolC8 : BufferPool :=
  { pool := [blkC8]
    head := 1
    tail := 1
    pos := 0
    nextId := 7 }

/-- The pool after `free 3` has drained the block: inactive, chain
empty. -/
def poolC8f : BufferPool :=
  { pool := [{ blkC8 with active := false }]
    head := 0
    tail := 0
    pos := 0
    nextId := 7 }

/-- Witness for C8: `free 3` covers the 3-byte block, marking it
inactive and emptying the chain; a `swap` asking for 6 ≤ 8 bytes then
returns that block's storage (identity 5) with no new allocation. -/
theorem c8_witness :
    poolC8.free 3 = some poolC8f ∧
    poolC8f.pool.get? 0 = some { blkC8 with active := false } ∧
    poolC8f.head = 0 ∧ poolC8f.tail = 0 ∧
    ((poolC8f.swap { id := 9, len := 2, cap := 4 } 6).map fun pr =>
      (pr.2, pr.1.pool.length, pr.1.nextId)) =
      some ({ id := 5, len := 0, cap := 8 }, 1, 7) := by
  have h := c8_pool_reclamation poolC8 poolC8f 3 0 blkC8
    { id := 9, len := 2, cap := 4 } 6 (by decide) rfl rfl (by decide)
    (Or.inl rfl) (by decide) ⟨by decide, by decide⟩ (by decide)
  obtain ⟨hg, ht, -, hh, p'', ret, hs, hr, hl, hn⟩ := h
  refine ⟨by decide, hg, hh rfl, ht, ?_⟩
  rw [hs, Option.map_some', hr, hl, hn]
  rfl
